import Mathlib

/-!
Verification of the tutorial-validator execution engine.

The development shallowly embeds the pure parts of the step-execution engine:

* the text edit engine `src/packages/tutorial-step-executor/src/sandbox/fileChangeUtils.ts`
  (`findPatternLineIndex`, `applyDiffChange`, `applyContextChange`,
  `applyFileChangeToContents`);
* the validation logic of `src/packages/tutorial-step-executor/src/executor/index.ts`
  (`validateCliOutput`, `validateFileContents`, the step loop of `execute`, and the
  working-directory tracking `isCdCommand` / `parseCdTarget`).

JavaScript strings are modelled as lists of characters (`Str`).  Sandbox I/O
(`executeCommand`, the filesystem) and host-dependent path resolution
(`path.resolve`) are abstracted as explicit oracle parameters; regular-expression
tests over caller-supplied patterns (`new RegExp(p).test(s)`) are abstracted as a
`regexTest` parameter.  Everything else is translated statement by statement from
the TypeScript source.  Thrown `Error`s are modelled with `Except`.
-/

set_option linter.unusedVariables false

/-- Characters of a JavaScript string: file contents, patterns and messages. -/
abbrev Str := List Char

/-- Conversion from a Lean string literal to the character-list representation. -/
def strL (s : String) : Str := s.toList

/-- The opening curly brace character. -/
def lbrace : Char := Char.ofNat 123

/-- The closing curly brace character. -/
def rbrace : Char := Char.ofNat 125

/-- The backtick character (used in JavaScript replacement patterns). -/
def btickChar : Char := Char.ofNat 96

/-- The apostrophe character. -/
def apostChar : Char := Char.ofNat 39

/-- Whitespace test mirroring the JavaScript regular-expression class \s, which is
also the character set removed by String.prototype.trim. -/
def isJsWs (c : Char) : Bool :=
  c == ' ' || c == '\t' || c == '\n' || c == '\r' ||
  c.toNat == 11 || c.toNat == 12 || c.toNat == 0xa0 || c.toNat == 0x1680 ||
  (decide (0x2000 ≤ c.toNat) && decide (c.toNat ≤ 0x200a)) ||
  c.toNat == 0x2028 || c.toNat == 0x2029 || c.toNat == 0x202f ||
  c.toNat == 0x205f || c.toNat == 0x3000 || c.toNat == 0xfeff

/-- JavaScript String.prototype.trim: strip leading and trailing whitespace. -/
def jsTrim (s : Str) : Str :=
  ((s.dropWhile isJsWs).reverse.dropWhile isJsWs).reverse

/-- Number of newline characters in a string. -/
def countNl (s : Str) : Nat := s.count '\n'

/-- JavaScript contents.split('\n'). -/
def splitNl (s : Str) : List Str := s.splitOn '\n'

/-- JavaScript lines.join('\n'). -/
def joinNl (L : List Str) : Str := List.intercalate ['\n'] L

/-- JavaScript s.endsWith(c) for a single character c. -/
def endsWithChar (s : Str) (c : Char) : Bool := s.getLast? == some c

/-- JavaScript s.startsWith(c) for a single character c. -/
def startsWithChar (s : Str) (c : Char) : Bool := s.head? == some c

/-- Index of the first occurrence of pat in s (JavaScript String.prototype.indexOf),
none when pat does not occur. -/
def firstInfixIdx (s pat : Str) : Option Nat :=
  if pat.isPrefixOf s then some 0
  else
    match s with
    | [] => none
    | _ :: t => (firstInfixIdx t pat).map (· + 1)

/-- JavaScript s.includes(pat): substring test. -/
def containsSub (s pat : Str) : Bool := (firstInfixIdx s pat).isSome

/-- Embedding of findPatternLineIndex (fileChangeUtils.ts, lines 14-47).  A pattern
with an embedded newline is located by a whole-content substring search and the
returned index is computed from the split lengths exactly as in the source; a
single-line pattern is located by a first-matching-line scan.  A missing pattern
throws, modelled as Except.error carrying the source's message. -/
def findPatternLineIndex (contents pattern filePath : Str) : Except Str Nat :=
  if '\n' ∈ pattern then
    match firstInfixIdx contents pattern with
    | none => .error (strL "Search pattern not found in file " ++ filePath)
    | some i =>
        .ok ((splitNl (contents.take i)).length - 1 + (splitNl pattern).length)
  else
    match (splitNl contents).findIdx? (fun line => containsSub line pattern) with
    | some i => .ok i
    | none =>
        .error (strL "Search pattern \"" ++ pattern ++ strL "\" not found in file " ++ filePath)

/-- JavaScript Array.prototype.splice(start, deleteCount) for a nonnegative start
(the zod input schema forces nonnegative integers): start is clamped to the array
length and max(deleteCount, 0) elements are removed. -/
def jsSpliceRemove (l : List Str) (start : Nat) (deleteCount : Int) : List Str :=
  l.take start ++ l.drop (start + deleteCount.toNat)

/-- JavaScript Array.prototype.splice(i, 0, ...items): insertion with the start
index clamped to the array length. -/
def jsSpliceInsert (l : List Str) (i : Nat) (items : List Str) : List Str :=
  l.take i ++ items ++ l.drop i

/-- JavaScript array index assignment lines[i] = x: an in-range index overwrites,
index = length appends, and a larger index creates holes that join('\n') later
renders as empty strings. -/
def jsArraySet (l : List Str) (i : Nat) (x : Str) : List Str :=
  if i < l.length then l.set i x
  else l ++ List.replicate (i - l.length) [] ++ [x]

/-- Expansion of JavaScript replacement patterns for String.prototype.replace with
a string search value: $$ inserts a dollar, $& the matched text, a dollar followed
by a backtick the text before the match, a dollar followed by an apostrophe the
text after the match; every other dollar sequence stays literal ($n is only
special for RegExp search values). -/
def jsReplacementApply (matched before after : Str) : Str → Str
  | [] => []
  | [c] => [c]
  | c :: d :: rest =>
      if c = '$' then
        if d = '$' then '$' :: jsReplacementApply matched before after rest
        else if d = '&' then matched ++ jsReplacementApply matched before after rest
        else if d = btickChar then before ++ jsReplacementApply matched before after rest
        else if d = apostChar then after ++ jsReplacementApply matched before after rest
        else '$' :: jsReplacementApply matched before after (d :: rest)
      else c :: jsReplacementApply matched before after (d :: rest)

/-- JavaScript contents.replace(find, replace) with a string search value: the
first occurrence of find is replaced by the replacement string with its $-patterns
expanded; no occurrence leaves the string unchanged. -/
def jsReplaceFirst (s find rep : Str) : Str :=
  match firstInfixIdx s find with
  | none => s
  | some i =>
      s.take i ++ jsReplacementApply find (s.take i) (s.drop (i + find.length)) rep ++
        s.drop (i + find.length)

/-- Replacement matchedLine.replace(/([^,])$/, '$1,'): append a comma when the last
character exists and is not already a comma. -/
def jsAppendComma (s : Str) : Str :=
  match s.getLast? with
  | some c => if c = ',' then s else s ++ [',']
  | none => s

/-- Replacement insertedContent.replace(/,\s*$/, ''): drop the suffix starting at
the first comma that is followed by whitespace only (the regex anchor also matches
before a final line terminator, but a whitespace-only remainder is then consumed
greedily, so the first such comma starts the removed suffix); no such comma leaves
the string unchanged. -/
def stripTrailingCommaWs : Str → Str
  | [] => []
  | c :: rest =>
      if c == ',' && rest.all isJsWs then [] else c :: stripTrailingCommaWs rest

/-- Net brace count of one line: +1 per opening brace, -1 per closing brace
(fileChangeUtils.ts lines 129-135 and 142-146). -/
def braceDelta (line : Str) : Int :=
  line.foldl (fun d c => if c = lbrace then d + 1 else if c = rbrace then d - 1 else d) 0

/-- Look-ahead over the lines after the insertion point (fileChangeUtils.ts lines
137-165): walking the remaining lines while updating the brace depth, decide
whether another property (a line whose trimmed form starts with a quote) follows
inside the enclosing object before it closes. -/
def hasMorePropsLoop : List Str → Int → Bool
  | [], _ => false
  | line :: rest, depth =>
      let d := depth + braceDelta line
      let t := jsTrim line
      if t.isEmpty then hasMorePropsLoop rest d
      else if d < 0 then false
      else if startsWithChar t '"' && decide (0 ≤ d) then true
      else if startsWithChar t rbrace then false
      else hasMorePropsLoop rest d

/-- Anchor actions of a ContextAnchor edit. -/
inductive CtxAction where
  | before
  | after
  | replace
deriving DecidableEq

/-- File change operations of the DSL (dsl/index.ts): whole-file replace, line
diff, or context-anchored change.  Line indices are nonnegative integers per the
zod schema. -/
inductive FileChange where
  | replace (path : Str) (contents : Str)
  | diff (path : Str) (removeLines : Option (Nat × Nat))
      (insertLines : Option (Nat × List Str)) (findReplace : Option (Str × Str))
  | context (path : Str) (searchPattern : Str) (action : CtxAction) (content : Str)

/-- The removeLines sub-operation of a diff edit (fileChangeUtils.ts lines 59-62):
lines.splice(start, end - start + 1) when present. -/
def applyRemoveLines (removeLines : Option (Nat × Nat)) (lines : List Str) : List Str :=
  match removeLines with
  | some (s, e) => jsSpliceRemove lines s ((e : Int) - (s : Int) + 1)
  | none => lines

/-- The insertLines sub-operation of a diff edit (fileChangeUtils.ts lines 65-68):
lines.splice(at, 0, ...linesToInsert) when present. -/
def applyInsertLines (insertLines : Option (Nat × List Str)) (lines : List Str) : List Str :=
  match insertLines with
  | some (i, xs) => jsSpliceInsert lines i xs
  | none => lines

/-- Embedding of applyDiffChange (fileChangeUtils.ts lines 52-77): remove lines,
then insert lines into the same buffer, but a present findReplace returns the
original contents with the first occurrence replaced, ignoring the line buffer. -/
def applyDiffChange (contents : Str) (removeLines : Option (Nat × Nat))
    (insertLines : Option (Nat × List Str)) (findReplace : Option (Str × Str)) : Str :=
  let lines := splitNl contents
  let lines1 := applyRemoveLines removeLines lines
  let lines2 := applyInsertLines insertLines lines1
  match findReplace with
  | some (f, r) => jsReplaceFirst contents f r
  | none => joinNl lines2

/-- The JSON-aware insertion path of applyContextChange (fileChangeUtils.ts lines
97-172), reached for action = after on a .json path with the found index in
range: possibly append a comma to the matched line, then possibly strip a
trailing comma from the content when the look-ahead finds no further property,
then splice the content in after the matched line. -/
def jsonAfterLines (lines : List Str) (foundIndex : Nat) (content : Str) : List Str :=
  let matchedLine := lines.getD foundIndex []
  let trimmedLine := jsTrim matchedLine
  let lines1 :=
    if !trimmedLine.isEmpty && !endsWithChar trimmedLine ',' &&
        !endsWithChar trimmedLine lbrace && !endsWithChar trimmedLine '[' &&
        !endsWithChar trimmedLine rbrace && !endsWithChar trimmedLine ']' &&
        startsWithChar (jsTrim content) '"' then
      lines.set foundIndex (jsAppendComma matchedLine)
    else lines
  let depth0 := ((lines1.take (foundIndex + 1)).map braceDelta).sum
  let hasMore := hasMorePropsLoop (lines1.drop (foundIndex + 1)) depth0
  let inserted :=
    if !hasMore && endsWithChar (jsTrim content) ',' then
      stripTrailingCommaWs content
    else content
  jsSpliceInsert lines1 (foundIndex + 1) [inserted]

/-- Embedding of applyContextChange (fileChangeUtils.ts lines 82-182), including
the JSON-aware path for action = after on a path ending in .json. -/
def applyContextChange (contents searchPattern : Str) (action : CtxAction)
    (content filePath : Str) : Except Str Str :=
  let lines := splitNl contents
  match findPatternLineIndex contents searchPattern filePath with
  | .error e => .error e
  | .ok foundIndex =>
    match action with
    | .before => .ok (joinNl (jsSpliceInsert lines foundIndex [content]))
    | .after =>
        let isJsonFile := (strL ".json").isSuffixOf filePath
        if isJsonFile && decide (foundIndex < lines.length) then
          .ok (joinNl (jsonAfterLines lines foundIndex content))
        else
          .ok (joinNl (jsSpliceInsert lines (foundIndex + 1) [content]))
    | .replace => .ok (joinNl (jsArraySet lines foundIndex content))

instance : DecidableEq (Except Str Str) := fun a b =>
  match a, b with
  | .ok x, .ok y =>
      if h : x = y then isTrue (by rw [h]) else isFalse (by simp [h])
  | .error x, .error y =>
      if h : x = y then isTrue (by rw [h]) else isFalse (by simp [h])
  | .ok _, .error _ => isFalse (by simp)
  | .error _, .ok _ => isFalse (by simp)

/-- Embedding of applyFileChangeToContents (fileChangeUtils.ts lines 188-201), the
pure entry point of the text edit engine. -/
def applyFileChangeToContents (contents : Str) (change : FileChange) (filePath : Str) :
    Except Str Str :=
  match change with
  | .replace _ c => .ok c
  | .diff _ rm ins fr => .ok (applyDiffChange contents rm ins fr)
  | .context _ pat act cont => applyContextChange contents pat act cont filePath

/-- Result of Sandbox.executeCommand (sandbox/index.ts). -/
structure CommandResult where
  exitCode : Int
  stdout : Str
  stderr : Str

/-- The check object of a cli-output validation (dsl/index.ts ValidateCliOutput). -/
structure CliCheck where
  contains : Option Str
  containsError : Option Str
  matchesPat : Option Str
  exitCode : Option Int

/-- JavaScript truthiness of an optional string: undefined and the empty string
are falsy (the executor guards every string-valued check with it). -/
def truthy : Option Str → Bool
  | none => false
  | some s => !s.isEmpty

/-- Decimal rendering of an integer, as JavaScript template interpolation. -/
def intToStr (n : Int) : Str := strL (toString n)

/-- Error message for a failed exit-code predicate (executor/index.ts line 311). -/
def msgExitCode (expected got : Int) : Str :=
  strL "Expected exit code " ++ intToStr expected ++ strL ", got " ++ intToStr got

/-- Error message for a failed stdout-contains predicate (line 316). -/
def msgStdoutContains (s : Str) : Str :=
  strL "Expected stdout to contain \"" ++ s ++ strL "\""

/-- Error message for a failed stderr-contains predicate (line 321). -/
def msgStderrContains (s : Str) : Str :=
  strL "Expected stderr to contain \"" ++ s ++ strL "\""

/-- Error message for a failed combined-output regex predicate (line 329). -/
def msgPattern (p : Str) : Str := strL "Output did not match pattern: " ++ p

/-- JavaScript errors.join('; '). -/
def joinErrors (errs : List Str) : Str := List.intercalate (strL "; ") errs

/-- Embedding of validateCliOutput (executor/index.ts lines 290-342).  The command
result is a parameter (sandbox I/O); regexTest abstracts new RegExp(p).test(s).
Returns the step's success flag and error string; the diagnostic output field of
StepResult is omitted. -/
def validateCliOutput (regexTest : Str → Str → Bool) (check : CliCheck)
    (result : CommandResult) : Bool × Option Str :=
  let errs : List Str :=
    (match check.exitCode with
     | some c => if result.exitCode ≠ c then [msgExitCode c result.exitCode] else []
     | none => []) ++
    (if truthy check.contains && !containsSub result.stdout (check.contains.getD []) then
       [msgStdoutContains (check.contains.getD [])]
     else []) ++
    (if truthy check.containsError &&
        !containsSub result.stderr (check.containsError.getD []) then
       [msgStderrContains (check.containsError.getD [])]
     else []) ++
    (if truthy check.matchesPat &&
        !regexTest (check.matchesPat.getD []) (jsTrim (result.stdout ++ result.stderr)) then
       [msgPattern (check.matchesPat.getD [])]
     else [])
  (errs.isEmpty, if errs.isEmpty then none else some (joinErrors errs))

/-- The check object of a file-contents validation (dsl/index.ts
ValidateFileContents); the source field named exists is rendered existsFlag
because exists is a Lean keyword. -/
structure FileCheck where
  contains : Option Str
  matchesPat : Option Str
  equals : Option Str
  existsFlag : Option Bool

/-- JavaScript contents.replace(/\r\n/g, '\n'): left-to-right, non-overlapping
normalization of CRLF pairs to LF. -/
def normalizeCrlf : Str → Str
  | [] => []
  | [c] => [c]
  | c :: d :: rest =>
      if c = '\r' ∧ d = '\n' then '\n' :: normalizeCrlf rest
      else c :: normalizeCrlf (d :: rest)

/-- The CRLF variant of a logical content: every LF becomes CRLF (used to state
the normalization claims). -/
def crlfOf : Str → Str
  | [] => []
  | c :: rest => if c = '\n' then '\r' :: '\n' :: crlfOf rest else c :: crlfOf rest

/-- Error message for a missing file (executor/index.ts lines 363 and 381). -/
def msgFileNotExist (path : Str) : Str := strL "File does not exist: " ++ path

/-- Error message for a file that should be absent (line 371). -/
def msgFileShouldNotExist (path : Str) : Str := strL "File should not exist: " ++ path

/-- Error message for a failed file-contains predicate (line 400). -/
def msgNotContain (s : Str) : Str := strL "File does not contain: \"" ++ s ++ strL "\""

/-- Error message for a failed exact-equality predicate (line 409). -/
def msgNotEqual : Str := strL "File contents do not match exactly"

/-- Error message for a failed file regex predicate (line 417). -/
def msgNotMatch (p : Str) : Str := strL "File contents do not match pattern: " ++ p

/-- Embedding of validateFileContents (executor/index.ts lines 347-430).  The
file's existence and contents come from sandbox I/O and are parameters; path is
the resolved file path used in messages.  Only the equals predicate normalizes
line endings; contains and matches test the raw contents.  The diagnostic output
field is omitted. -/
def validateFileContents (regexTest : Str → Str → Bool) (path : Str)
    (fileExists : Bool) (contents : Str) (check : FileCheck) : Bool × Option Str :=
  if check.existsFlag == some true && !fileExists then
    (false, some (msgFileNotExist path))
  else if check.existsFlag == some false && fileExists then
    (false, some (msgFileShouldNotExist path))
  else if !fileExists &&
      (truthy check.contains || truthy check.matchesPat || truthy check.equals) then
    (false, some (msgFileNotExist path))
  else if !fileExists then (true, none)
  else
    let errs : List Str :=
      (if truthy check.contains && !containsSub contents (check.contains.getD []) then
         [msgNotContain (check.contains.getD [])]
       else []) ++
      (match check.equals with
       | some e =>
           if normalizeCrlf contents ≠ normalizeCrlf e then [msgNotEqual] else []
       | none => []) ++
      (if truthy check.matchesPat && !regexTest (check.matchesPat.getD []) contents then
         [msgNotMatch (check.matchesPat.getD [])]
       else [])
    (errs.isEmpty, if errs.isEmpty then none else some (joinErrors errs))

/-- Per-step result of the execution engine (executor/index.ts StepResult); the
diagnostic output field is omitted. -/
structure StepResultM where
  stepId : Str
  stepNumber : Nat
  success : Bool
  error : Option Str

/-- Embedding of the step loop of TutorialExecutor.execute (executor/index.ts
lines 88-96): execute steps in order, pushing each result and stopping right
after the first failure.  The per-step dispatch (sandbox I/O plus interpreter
state update) is the execStep parameter; sandbox initialization is assumed to
succeed (an infrastructure failure is a separate category, spec section 7). -/
def runSteps {α σ : Type} (execStep : α → σ → StepResultM × σ) :
    List α → σ → List StepResultM
  | [], _ => []
  | s :: rest, st =>
      match execStep s st with
      | (r, st') => if r.success then r :: runSteps execStep rest st' else [r]

/-- The overall success flag (executor/index.ts line 98):
stepResults.every(r => r.success). -/
def overallSuccess {α σ : Type} (execStep : α → σ → StepResultM × σ)
    (steps : List α) (st : σ) : Bool :=
  (runSteps execStep steps st).all (·.success)

/-- Embedding of isCdCommand (executor/index.ts lines 442-448):
/^cd\s/.test(trimmed) || trimmed === 'cd'. -/
def isCdCommand (command : Str) : Bool :=
  let t := jsTrim command
  match t with
  | 'c' :: 'd' :: c :: _ => isJsWs c
  | _ => t == strL "cd"

/-- A JavaScript regex line terminator (never matched by the dot). -/
def isLineTerm (c : Char) : Bool :=
  c == '\n' || c == '\r' || c.toNat == 0x2028 || c.toNat == 0x2029

/-- Capture group of trimmed.match(/^cd\s+(.+)$/): the text after cd and its
whitespace run, or none when the regex fails (the dot cannot match a line
terminator, and a trimmed string never ends in one, so a line terminator in the
capture region kills the match). -/
def cdTargetCapture (t : Str) : Option Str :=
  match t with
  | 'c' :: 'd' :: rest =>
      let ws := rest.takeWhile isJsWs
      let cap := rest.dropWhile isJsWs
      if !ws.isEmpty && !cap.isEmpty && !cap.any isLineTerm then some cap else none
  | _ => none

/-- Quote stripping of the cd target (executor/index.ts lines 478-481). -/
def stripQuotes (t : Str) : Str :=
  if (startsWithChar t '"' && endsWithChar t '"') ||
      (startsWithChar t apostChar && endsWithChar t apostChar) then
    (t.drop 1).dropLast
  else t

/-- JavaScript s.split('/'). -/
def splitSlash (s : Str) : List Str := s.splitOn '/'

/-- currentWorkingDir.split('/').filter(p => p): path segments, empty pieces
dropped by truthiness. -/
def pathSegs (s : Str) : List Str := (splitSlash s).filter (fun p => !p.isEmpty)

/-- JavaScript parts.join('/'). -/
def joinSlash (L : List Str) : Str := List.intercalate ['/'] L

/-- JavaScript replace(/\/+/g, '/'): collapse every run of slashes to one. -/
def collapseSlashes : Str → Str
  | [] => []
  | [c] => [c]
  | c :: d :: rest =>
      if c = '/' ∧ d = '/' then collapseSlashes (d :: rest)
      else c :: collapseSlashes (d :: rest)

/-- JavaScript String.prototype.split with a multi-character separator, by fuel
recursion (the fuel strictly exceeds the string length, so it never runs out). -/
def splitSepGo (sep : Str) : Nat → Str → List Str
  | _, [] => [[]]
  | 0, s => [s]
  | fuel + 1, c :: rest =>
      if sep.isPrefixOf (c :: rest) then
        [] :: splitSepGo sep fuel ((c :: rest).drop sep.length)
      else
        match splitSepGo sep fuel rest with
        | h :: t => (c :: h) :: t
        | [] => [[c]]

/-- JavaScript s.split(sep) for a non-empty multi-character separator. -/
def splitSep (sep s : Str) : List Str := splitSepGo sep (s.length + 1) s

/-- JavaScript target.replace(/\.\.\//g, ''): remove every '../' occurrence,
scanning left to right (equal to splitting on '../' and concatenating). -/
def removeDotDotSlashes (s : Str) : Str := (splitSep (strL "../") s).flatten

/-- Embedding of absoluteToRelative (executor/index.ts lines 532-550); node's
path.resolve is host-dependent and abstracted as the resolvePath oracle. -/
def absoluteToRelative (resolvePath : Str → Str) (absolutePath workspaceRoot : Str) : Str :=
  let na := resolvePath absolutePath
  let nw := resolvePath workspaceRoot
  if na == nw then []
  else if (nw ++ ['/']).isPrefixOf na then na.drop (nw.length + 1)
  else []

/-- Embedding of parseCdTarget (executor/index.ts lines 454-527).  Shell
execution is the exec oracle (command, workingDir) to (exitCode, stdout);
resolvePath abstracts node path.resolve.  The probe branches (bare cd, tilde and
absolute targets) go through the oracle; the dot-dot and plain relative branches
are computed locally exactly as in the source. -/
def parseCdTarget (exec : Str → Str → Int × Str) (resolvePath : Str → Str)
    (workspaceRoot command currentWorkingDir : Str) : Option Str :=
  let trimmed := jsTrim command
  if trimmed == strL "cd" then
    let res := exec (strL "cd && pwd") currentWorkingDir
    if res.1 == 0 then
      some (absoluteToRelative resolvePath (jsTrim res.2) workspaceRoot)
    else some []
  else
    match cdTargetCapture trimmed with
    | none => none
    | some cap =>
        let target := stripQuotes (jsTrim cap)
        if target == strL "~" || (strL "~/").isPrefixOf target ||
            startsWithChar target '/' then
          let res := exec (trimmed ++ strL " && pwd") currentWorkingDir
          if res.1 == 0 then
            some (absoluteToRelative resolvePath (jsTrim res.2) workspaceRoot)
          else none
        else if target == strL ".." then
          some (joinSlash (pathSegs currentWorkingDir).dropLast)
        else if (strL "../").isPrefixOf target then
          let parts := pathSegs currentWorkingDir
          let upLevels := (splitSep (strL "../") target).length - 1
          let remaining := removeDotDotSlashes target
          let parts1 := parts.take (parts.length - upLevels)
          let parts2 := if !remaining.isEmpty then parts1 ++ [remaining] else parts1
          some (joinSlash parts2)
        else
          if !currentWorkingDir.isEmpty then
            some (collapseSlashes (currentWorkingDir ++ ['/'] ++ target))
          else some target

/-- Working-directory update after a run-command step without a step-level
workingDirectory override (executor/index.ts lines 218-223): only a successful
command matching the cd pattern may change the tracked directory, and a null
parse leaves it unchanged. -/
def updateCwdAfterRun (exec : Str → Str → Int × Str) (resolvePath : Str → Str)
    (workspaceRoot cwd command : Str) (exitCode : Int) : Str :=
  if exitCode == 0 && isCdCommand command then
    match parseCdTarget exec resolvePath workspaceRoot command cwd with
    | some d => d
    | none => cwd
  else cwd

/-- Statement of the claim's literal find/replace semantics, for comparison with
the source semantics jsReplaceFirst: the first occurrence of find replaced by the
replacement text taken verbatim. -/
def literalReplaceFirstSpec (s find rep : Str) : Str :=
  match firstInfixIdx s find with
  | none => s
  | some i => s.take i ++ rep ++ s.drop (i + find.length)

/-- A ContextAnchor pattern missing from the contents, in the sense of
findPatternLineIndex: multi-line patterns by whole-content substring search,
single-line patterns by per-line substring scan. -/
def patternMissing (contents pat : Str) : Prop :=
  if '\n' ∈ pat then ¬ pat <:+: contents
  else ∀ line ∈ splitNl contents, ¬ pat <:+: line

/-- A concrete regex oracle used in closed evaluations (never consulted there). -/
def rtFalse : Str → Str → Bool := fun _ _ => false

/-- A concrete regex oracle that accepts everything. -/
def rtTrue : Str → Str → Bool := fun _ _ => true

/-- A concrete shell oracle used in closed evaluations (never consulted there). -/
def execTrivial : Str → Str → Int × Str := fun _ _ => (0, [])

/-- A concrete path-resolution oracle used in closed evaluations. -/
def resolveTrivial : Str → Str := fun s => s

/-- A concrete per-step executor for closed evaluations of the step loop: the
step's boolean is its outcome. -/
def execStepOfBool : Bool → Unit → StepResultM × Unit :=
  fun b _ => (⟨[], 0, b, none⟩, ())

/-! ### Helper lemmas about the string primitives -/

theorem splitNl_ne_nil (s : Str) : splitNl s ≠ [] := by
  unfold splitNl List.splitOn
  exact List.splitOnP_ne_nil _ s

theorem length_splitOnP_countP (p : Char → Bool) (s : Str) :
    (s.splitOnP p).length = s.countP p + 1 := by
  induction s with
  | nil => simp
  | cons c t ih =>
    rw [List.splitOnP_cons]
    by_cases hc : p c <;> simp [hc, List.countP_cons, ih]

theorem length_splitNl (s : Str) : (splitNl s).length = countNl s + 1 := by
  have h := length_splitOnP_countP (· == '\n') s
  simpa [splitNl, countNl, List.splitOn, List.count] using h

theorem mem_splitNl_not_nl (s : Str) : ∀ l ∈ splitNl s, '\n' ∉ l := by
  unfold splitNl List.splitOn
  induction s with
  | nil =>
    intro l hl
    simp at hl
    simp [hl]
  | cons c t ih =>
    intro l hl
    rw [List.splitOnP_cons] at hl
    by_cases hc : c = '\n'
    · simp [hc] at hl
      rcases hl with hl | hl
      · simp [hl]
      · exact ih l hl
    · simp [hc] at hl
      rcases hsp : t.splitOnP (· == '\n') with _ | ⟨h1, t1⟩
      · exact absurd hsp (List.splitOnP_ne_nil _ t)
      · rw [hsp] at hl
        simp at hl
        rcases hl with hl | hl
        · subst hl
          intro hmem
          rcases List.mem_cons.mp hmem with h | h
          · exact hc h.symm
          · exact ih h1 (by rw [hsp]; exact List.mem_cons_self _ _) h
        · exact ih l (by rw [hsp]; exact List.mem_cons_of_mem _ hl)

theorem intercalate_two (sep x y : Str) (t : List Str) :
    List.intercalate sep (x :: y :: t) = x ++ sep ++ List.intercalate sep (y :: t) := by
  simp [List.intercalate, List.intersperse_cons_cons]

theorem intercalate_single (sep x : Str) : List.intercalate sep [x] = x := by
  simp [List.intercalate]

theorem countNl_joinNl (L : List Str) (hL : L ≠ []) :
    countNl (joinNl L) + 1 = (L.map countNl).sum + L.length := by
  induction L with
  | nil => exact absurd rfl hL
  | cons x t ih =>
    cases t with
    | nil => simp [joinNl, countNl, intercalate_single]
    | cons y t2 =>
      have hstep : joinNl (x :: y :: t2) = x ++ ['\n'] ++ joinNl (y :: t2) := by
        unfold joinNl
        exact intercalate_two _ _ _ _
      have ih2 := ih (List.cons_ne_nil _ _)
      unfold countNl at *
      rw [hstep]
      simp only [List.count_append, List.map_cons, List.sum_cons, List.length_cons] at *
      have hone : List.count '\n' ['\n'] = 1 := by decide
      omega

theorem length_splitNl_joinNl (L : List Str) (hL : L ≠ []) :
    (splitNl (joinNl L)).length = (L.map countNl).sum + L.length := by
  rw [length_splitNl]
  have h := countNl_joinNl L hL
  omega

theorem joinNl_splitNl (s : Str) : joinNl (splitNl s) = s := by
  unfold joinNl splitNl
  exact List.intercalate_splitOn s '\n'

theorem firstInfixIdx_isSome_iff (s pat : Str) :
    (firstInfixIdx s pat).isSome = true ↔ pat <:+: s := by
  induction s with
  | nil =>
    unfold firstInfixIdx
    by_cases hp : pat.isPrefixOf ([] : Str)
    · have hpe : pat = [] := List.prefix_nil.mp (List.isPrefixOf_iff_prefix.mp hp)
      subst hpe
      simp [hp]
    · have hne : pat ≠ [] := by
        intro h
        subst h
        exact hp (List.isPrefixOf_iff_prefix.mpr List.nil_prefix)
      simp [hp]
      intro hinf
      exact hne hinf
  | cons c t ih =>
    unfold firstInfixIdx
    by_cases hp : pat.isPrefixOf (c :: t)
    · simp [hp]
      exact (List.isPrefixOf_iff_prefix.mp hp).isInfix
    · simp [hp, Option.isSome_map]
      rw [ih, List.infix_cons_iff]
      have hnp : ¬ pat <+: c :: t := fun h => hp (List.isPrefixOf_iff_prefix.mpr h)
      tauto

theorem containsSub_iff (s pat : Str) : containsSub s pat = true ↔ pat <:+: s := by
  unfold containsSub
  exact firstInfixIdx_isSome_iff s pat

theorem infix_of_mem_intercalate (sep x : Str) (L : List Str) (h : x ∈ L) :
    x <:+: List.intercalate sep L := by
  induction L with
  | nil => cases h
  | cons y t ih =>
    cases t with
    | nil =>
      rcases List.mem_cons.mp h with h1 | h1
      · subst h1
        rw [intercalate_single]
      · cases h1
    | cons z t2 =>
      rw [intercalate_two]
      rcases List.mem_cons.mp h with h1 | h1
      · subst h1
        exact ((List.prefix_append x sep).trans (List.prefix_append _ _)).isInfix
      · rcases ih h1 with ⟨a, b, hab⟩
        exact ⟨(y ++ sep) ++ a, b, by rw [← hab]; simp⟩

theorem infix_of_mem_joinErrors (x : Str) (L : List Str) (h : x ∈ L) :
    x <:+: joinErrors L := infix_of_mem_intercalate _ x L h

theorem takeWhile_append_all {p : Char → Bool} (l xs : Str) (h : l.all p = true) :
    (l ++ xs).takeWhile p = l ++ xs.takeWhile p := by
  induction l with
  | nil => simp
  | cons c t ih =>
    simp only [List.all_cons, Bool.and_eq_true] at h
    simp [List.takeWhile_cons, h.1, ih h.2]

theorem stripTrailingCommaWs_cases (s : Str) :
    stripTrailingCommaWs s = s ∨
      ∃ pre rest, s = pre ++ ',' :: rest ∧ rest.all isJsWs = true ∧
        stripTrailingCommaWs s = pre := by
  induction s with
  | nil => left; rfl
  | cons c rest ih =>
    by_cases h : (c == ',' && rest.all isJsWs) = true
    · right
      refine ⟨[], rest, ?_, ?_, ?_⟩
      · simp only [Bool.and_eq_true, beq_iff_eq] at h
        simp [h.1]
      · simp only [Bool.and_eq_true] at h
        exact h.2
      · simp [stripTrailingCommaWs, h]
    · rcases ih with h1 | ⟨pre, r2, hs, hall, hst⟩
      · left
        simp [stripTrailingCommaWs, h, h1]
      · right
        refine ⟨c :: pre, r2, by rw [hs]; rfl, hall, ?_⟩
        simp [stripTrailingCommaWs, h, hst]

theorem countNl_stripTrailingCommaWs (s : Str)
    (hws : '\n' ∉ s.reverse.takeWhile isJsWs) :
    countNl (stripTrailingCommaWs s) = countNl s := by
  rcases stripTrailingCommaWs_cases s with h | ⟨pre, rest, hs, hall, hst⟩
  · rw [h]
  · rw [hst, hs]
    have hallrev : rest.reverse.all isJsWs = true := by
      rw [List.all_reverse]
      exact hall
    have htw : (s.reverse).takeWhile isJsWs =
        rest.reverse ++ ((',' :: pre.reverse).takeWhile isJsWs) := by
      rw [hs]
      have : (pre ++ ',' :: rest).reverse = rest.reverse ++ (',' :: pre.reverse) := by
        simp
      rw [this]
      exact takeWhile_append_all _ _ hallrev
    have hnr : '\n' ∉ rest := by
      intro hmem
      apply hws
      rw [htw]
      exact List.mem_append_left _ (List.mem_reverse.mpr hmem)
    have hzero : countNl rest = 0 := by
      unfold countNl
      exact List.count_eq_zero.mpr hnr
    unfold countNl at *
    simp [List.count_append, List.count_cons, hzero]

theorem countNl_jsAppendComma (s : Str) : countNl (jsAppendComma s) = countNl s := by
  unfold jsAppendComma
  cases h : s.getLast? with
  | none => rfl
  | some c =>
    by_cases hc : c = ','
    · simp [hc]
    · have : List.count '\n' [','] = 0 := by decide
      simp [hc, countNl, List.count_append, this]

theorem sum_countNl_eq_zero {L : List Str} (h : ∀ l ∈ L, countNl l = 0) :
    (L.map countNl).sum = 0 := by
  apply List.sum_eq_zero
  intro x hx
  rcases List.mem_map.mp hx with ⟨l, hl, hxl⟩
  rw [← hxl]
  exact h l hl

theorem length_jsSpliceInsert_one (l : List Str) (i : Nat) (x : Str) :
    (jsSpliceInsert l i [x]).length = l.length + 1 := by
  simp [jsSpliceInsert]
  omega

theorem sum_countNl_jsSpliceInsert_one (l : List Str) (i : Nat) (x : Str)
    (hzero : ∀ y ∈ l, countNl y = 0) :
    ((jsSpliceInsert l i [x]).map countNl).sum = countNl x := by
  have h1 : ((l.take i).map countNl).sum = 0 :=
    sum_countNl_eq_zero (fun y hy => hzero y (List.mem_of_mem_take hy))
  have h2 : ((l.drop i).map countNl).sum = 0 :=
    sum_countNl_eq_zero (fun y hy => hzero y (List.mem_of_mem_drop hy))
  unfold jsSpliceInsert
  rw [List.map_append, List.map_append, List.sum_append, List.sum_append, h1, h2]
  simp

theorem mem_set_countNl_zero {l : List Str} {k : Nat} {x : Str}
    (hzero : ∀ y ∈ l, countNl y = 0) (hx : countNl x = 0) :
    ∀ y ∈ l.set k x, countNl y = 0 := by
  intro y hy
  rcases List.mem_or_eq_of_mem_set hy with h | h
  · exact hzero y h
  · rw [h]
    exact hx

theorem jsReplacementApply_no_dollar (m b a : Str) (r : Str) (h : '$' ∉ r) :
    jsReplacementApply m b a r = r := by
  induction r with
  | nil => rfl
  | cons c t ih =>
    have hc : c ≠ '$' := fun hcc => h (hcc ▸ List.mem_cons_self _ _)
    have ht : '$' ∉ t := fun hm => h (List.mem_cons_of_mem _ hm)
    cases t with
    | nil => rfl
    | cons d rest =>
      simp only [jsReplacementApply, hc, if_false]
      rw [ih ht]

theorem crlfOf_eq_nil {s : Str} (h : crlfOf s = []) : s = [] := by
  cases s with
  | nil => rfl
  | cons c t =>
    unfold crlfOf at h
    by_cases hc : c = '\n' <;> simp [hc] at h

theorem normalizeCrlf_no_cr (s : Str) (h : '\r' ∉ s) : normalizeCrlf s = s := by
  induction s with
  | nil => rfl
  | cons c t ih =>
    have hc : c ≠ '\r' := fun hcc => h (hcc ▸ List.mem_cons_self _ _)
    have ht : '\r' ∉ t := fun hm => h (List.mem_cons_of_mem _ hm)
    cases t with
    | nil => rfl
    | cons d rest =>
      have hcond : ¬(c = '\r' ∧ d = '\n') := fun hh => hc hh.1
      simp only [normalizeCrlf, hcond, if_false]
      rw [ih ht]

theorem normalizeCrlf_crlfOf (s : Str) (h : '\r' ∉ s) : normalizeCrlf (crlfOf s) = s := by
  induction s with
  | nil => rfl
  | cons c t ih =>
    have hc : c ≠ '\r' := fun hcc => h (hcc ▸ List.mem_cons_self _ _)
    have ht : '\r' ∉ t := fun hm => h (List.mem_cons_of_mem _ hm)
    by_cases hnl : c = '\n'
    · subst hnl
      show normalizeCrlf (crlfOf ('\n' :: t)) = '\n' :: t
      have hcr : crlfOf ('\n' :: t) = '\r' :: '\n' :: crlfOf t := by simp [crlfOf]
      rw [hcr]
      have : normalizeCrlf ('\r' :: '\n' :: crlfOf t) = '\n' :: normalizeCrlf (crlfOf t) := by
        simp [normalizeCrlf]
      rw [this, ih ht]
    · have hcr : crlfOf (c :: t) = c :: crlfOf t := by simp [crlfOf, hnl]
      rw [hcr]
      cases h2 : crlfOf t with
      | nil =>
        have : t = [] := crlfOf_eq_nil h2
        subst this
        rfl
      | cons d r2 =>
        have hcond : ¬(c = '\r' ∧ d = '\n') := fun hh => hc hh.1
        simp only [normalizeCrlf, hcond, if_false]
        rw [← h2, ih ht]

/-! ### Claim theorems -/

/-- C9: for every Replace edit, applyFileChangeToContents returns the edit's
contents field regardless of the existing content, so applying the same Replace
twice yields the same final content as applying it once. -/
theorem replace_edit_idempotent (contents p c path : Str) :
    applyFileChangeToContents contents (FileChange.replace p c) path = Except.ok c ∧
    (applyFileChangeToContents contents (FileChange.replace p c) path).bind
        (fun r => applyFileChangeToContents r (FileChange.replace p c) path) =
      applyFileChangeToContents contents (FileChange.replace p c) path :=
  ⟨rfl, rfl⟩

/-- C4 counterexample: with findReplace find = "x", replace = "$&y" on contents
"x", the code yields "xy" (JavaScript interprets $& in the replacement string as
the matched text), not the claimed literal replacement "$&y". -/
theorem findReplace_dollar_counterexample :
    applyDiffChange (strL "x") none none (some (strL "x", strL "$&y")) = strL "xy" ∧
    strL "xy" ≠ strL "$&y" := by
  constructor
  · rfl
  · decide

/-- C4 (amended): when findReplace is present the result is
contents.replace(find, replace) — the first occurrence of the literal substring
find replaced by the replacement string with JavaScript $-escapes expanded, which
is the verbatim replace whenever replace contains no dollar — and any removeLines
or insertLines in the same edit have no effect; when findReplace is absent,
removeLines is applied first and insertLines second on the same line buffer. -/
theorem diff_findReplace_semantics (contents f r : Str)
    (rm : Option (Nat × Nat)) (ins : Option (Nat × List Str)) :
    applyDiffChange contents rm ins (some (f, r)) = jsReplaceFirst contents f r ∧
    ('$' ∉ r →
      applyDiffChange contents rm ins (some (f, r)) = literalReplaceFirstSpec contents f r) ∧
    applyDiffChange contents rm ins none =
      joinNl (applyInsertLines ins (applyRemoveLines rm (splitNl contents))) := by
  refine ⟨rfl, fun hd => ?_, rfl⟩
  show jsReplaceFirst contents f r = literalReplaceFirstSpec contents f r
  unfold jsReplaceFirst literalReplaceFirstSpec
  cases h : firstInfixIdx contents f with
  | none => rfl
  | some i =>
    dsimp only
    rw [jsReplacementApply_no_dollar _ _ _ r hd]

/-- C4 witness: a dollar-free replacement behaves literally on a concrete input. -/
theorem diff_findReplace_semantics_witness :
    applyDiffChange (strL "abc") none none (some (strL "b", strL "Z")) =
      literalReplaceFirstSpec (strL "abc") (strL "b") (strL "Z") :=
  (diff_findReplace_semantics (strL "abc") (strL "b") (strL "Z") none none).2.1 (by decide)

/-- C2 counterexample: a file-contents contains check is evaluated on the raw
contents without CRLF normalization, so contains "a\nb" succeeds on the LF file
"a\nb" but fails on its CRLF variant "a\r\nb". -/
theorem fileContains_crlf_counterexample :
    (validateFileContents rtFalse (strL "f.txt") true (strL "a\r\nb")
        ⟨some (strL "a\nb"), none, none, none⟩).1 = false ∧
    (validateFileContents rtFalse (strL "f.txt") true (strL "a\nb")
        ⟨some (strL "a\nb"), none, none, none⟩).1 = true := by
  constructor <;> rfl

/-- C2 (amended): only the equals check normalizes CRLF to LF (on both the file
contents and the expected text); contains and matches compare the raw contents.
Consequently an equals check is invariant under replacing the file's LF line
endings with CRLF. -/
theorem fileEquals_crlf_invariant (regexTest : Str → Str → Bool) (path c e : Str)
    (hc : '\r' ∉ c) :
    validateFileContents regexTest path true (crlfOf c) ⟨none, none, some e, none⟩ =
    validateFileContents regexTest path true c ⟨none, none, some e, none⟩ := by
  have h1 : normalizeCrlf (crlfOf c) = normalizeCrlf c := by
    rw [normalizeCrlf_crlfOf c hc, normalizeCrlf_no_cr c hc]
  unfold validateFileContents
  simp [truthy, h1]

/-- C2 witness: the equals invariance at a concrete two-line file. -/
theorem fileEquals_crlf_invariant_witness :
    validateFileContents rtFalse (strL "f.txt") true (crlfOf (strL "x\ny"))
        ⟨none, none, some (strL "x\ny"), none⟩ =
      validateFileContents rtFalse (strL "f.txt") true (strL "x\ny")
        ⟨none, none, some (strL "x\ny"), none⟩ :=
  fileEquals_crlf_invariant rtFalse (strL "f.txt") (strL "x\ny") (strL "x\ny") (by decide)

/-- C1 counterexample: on the one-line JSON file the matched line is the whole
object and ends with a closing brace, so the comma heuristic does not fire; the
result stacks "b":2 on a new line with no comma anywhere, which is not valid
JSON (every JSON serialization of a two-member object contains a comma). -/
theorem oneline_json_context_after_no_comma :
    applyFileChangeToContents (strL "\x7b\"a\":1\x7d")
        (FileChange.context (strL "app.json") (strL "\"a\":1") CtxAction.after (strL "\"b\":2"))
        (strL "app.json") =
      Except.ok (strL "\x7b\"a\":1\x7d\n\"b\":2") ∧
    ',' ∉ strL "\x7b\"a\":1\x7d\n\"b\":2" := by
  constructor
  · rfl
  · decide

/-- C1 (amended): on the pretty-printed three-line JSON file, the ContextAnchor
after-edit appends the separating comma to the matched property line
automatically and produces valid JSON equivalent to the two-member object; on the
one-line file the heuristic does not fire (the matched line ends in a closing
brace) and the output is the invalid concatenation. -/
theorem pretty_json_context_after_inserts_comma :
    applyFileChangeToContents (strL "\x7b\n\"a\":1\n\x7d")
        (FileChange.context (strL "app.json") (strL "\"a\":1") CtxAction.after (strL "\"b\":2"))
        (strL "app.json") =
      Except.ok (strL "\x7b\n\"a\":1,\n\"b\":2\n\x7d") := by
  rfl

/-- C6: a successful run-command step with command text cd .. pops one path
segment from the logical working directory (a/b becomes a, a becomes the empty
root), and the logical working directory is only updated when the command
matches the cd pattern and exited with code 0. -/
theorem cd_dotdot_pops_segment (exec : Str → Str → Int × Str)
    (resolvePath : Str → Str) (workspaceRoot : Str) :
    (∀ cwd : Str, updateCwdAfterRun exec resolvePath workspaceRoot cwd (strL "cd ..") 0 =
        joinSlash (pathSegs cwd).dropLast) ∧
    updateCwdAfterRun exec resolvePath workspaceRoot (strL "a/b") (strL "cd ..") 0 = strL "a" ∧
    updateCwdAfterRun exec resolvePath workspaceRoot (strL "a") (strL "cd ..") 0 = [] ∧
    (∀ (cwd command : Str) (exitCode : Int),
        exitCode ≠ 0 ∨ isCdCommand command = false →
          updateCwdAfterRun exec resolvePath workspaceRoot cwd command exitCode = cwd) := by
  refine ⟨fun cwd => rfl, rfl, rfl, ?_⟩
  intro cwd command ec h
  unfold updateCwdAfterRun
  rcases h with h | h
  · simp [beq_iff_eq, h]
  · simp [h]

/-- C6 witness: a failed command never moves the tracked directory. -/
theorem cd_dotdot_pops_segment_witness :
    updateCwdAfterRun execTrivial resolveTrivial [] (strL "a/b") (strL "cd ..") 1 =
      strL "a/b" :=
  (cd_dotdot_pops_segment execTrivial resolveTrivial []).2.2.2 (strL "a/b") (strL "cd ..") 1
    (Or.inl (by decide))

theorem runSteps_cons {α σ : Type} (execStep : α → σ → StepResultM × σ)
    (s : α) (rest : List α) (st : σ) :
    runSteps execStep (s :: rest) st =
      if (execStep s st).1.success then
        (execStep s st).1 :: runSteps execStep rest (execStep s st).2
      else [(execStep s st).1] := by
  rcases h : execStep s st with ⟨r, st2⟩
  simp [runSteps, h]

theorem runSteps_dropLast_success {α σ : Type} (execStep : α → σ → StepResultM × σ)
    (steps : List α) (st : σ) :
    ∀ r ∈ (runSteps execStep steps st).dropLast, r.success = true := by
  induction steps generalizing st with
  | nil => simp [runSteps]
  | cons s rest ih =>
    rw [runSteps_cons]
    by_cases hr : (execStep s st).1.success
    · simp only [hr, if_true]
      intro r hrm
      cases hL : runSteps execStep rest (execStep s st).2 with
      | nil =>
        rw [hL] at hrm
        simp at hrm
      | cons y t =>
        rw [hL] at hrm
        rw [show ((execStep s st).1 :: y :: t).dropLast =
            (execStep s st).1 :: (y :: t).dropLast from rfl] at hrm
        rcases List.mem_cons.mp hrm with h1 | h1
        · rw [h1]
          exact hr
        · exact ih (execStep s st).2 r (by rw [hL]; exact h1)
    · simp [hr]

/-- C3: the step loop stops at the first failing step — a failing step result can
only be the last element of stepResults and at most as many results as steps are
produced — and the overall success flag is true iff every included step result is
successful. -/
theorem execute_halts_on_first_failure {α σ : Type} (execStep : α → σ → StepResultM × σ)
    (steps : List α) (st : σ) :
    (∀ (i : Nat) (h : i < (runSteps execStep steps st).length),
        ((runSteps execStep steps st).get ⟨i, h⟩).success = false →
          i + 1 = (runSteps execStep steps st).length) ∧
    (runSteps execStep steps st).length ≤ steps.length ∧
    (overallSuccess execStep steps st = true ↔
      ∀ r ∈ runSteps execStep steps st, r.success = true) := by
  refine ⟨?_, ?_, ?_⟩
  · intro i h hfail
    by_contra hne
    have hlt : i < (runSteps execStep steps st).length - 1 := by omega
    have hlt2 : i < (runSteps execStep steps st).dropLast.length := by
      rw [List.length_dropLast]
      exact hlt
    have hmem : (runSteps execStep steps st).get ⟨i, h⟩ ∈
        (runSteps execStep steps st).dropLast := by
      rw [List.get_eq_getElem, ← List.getElem_dropLast _ i hlt2]
      exact List.getElem_mem hlt2
    have := runSteps_dropLast_success execStep steps st _ hmem
    rw [hfail] at this
    cases this
  · induction steps generalizing st with
    | nil => simp [runSteps]
    | cons s rest ih =>
      rw [runSteps_cons]
      by_cases hr : (execStep s st).1.success
      · simp only [hr, if_true, List.length_cons]
        exact Nat.succ_le_succ (ih (execStep s st).2)
      · simp only [hr, if_false, List.length_singleton, List.length_cons]
        exact Nat.succ_le_succ (Nat.zero_le _)
  · unfold overallSuccess
    rw [List.all_eq_true]

/-- C3 witness: a three-step run whose second step fails — the failing result is
the last one produced. -/
theorem execute_halts_on_first_failure_witness :
    1 + 1 = (runSteps execStepOfBool [true, false, true] ()).length :=
  (execute_halts_on_first_failure execStepOfBool [true, false, true] ()).1 1 (by decide)
    (by decide)

theorem findPatternLineIndex_error_iff (contents pat path : Str) :
    (∃ e, findPatternLineIndex contents pat path = Except.error e) ↔
      patternMissing contents pat := by
  unfold findPatternLineIndex patternMissing
  by_cases hnl : '\n' ∈ pat
  · simp only [hnl, if_true]
    have hstep : (∃ e, (match firstInfixIdx contents pat with
        | none => (Except.error (strL "Search pattern not found in file " ++ path) : Except Str Nat)
        | some i =>
            .ok ((splitNl (contents.take i)).length - 1 + (splitNl pat).length)) =
          Except.error e) ↔ firstInfixIdx contents pat = none := by
      cases hf : firstInfixIdx contents pat <;> simp
    rw [hstep, ← Option.not_isSome_iff_eq_none]
    exact not_congr (firstInfixIdx_isSome_iff contents pat)
  · simp only [hnl, if_false]
    have hstep : (∃ e, (match (splitNl contents).findIdx? (fun line => containsSub line pat) with
        | some i => (Except.ok i : Except Str Nat)
        | none => .error (strL "Search pattern \"" ++ pat ++ strL "\" not found in file " ++ path)) =
          Except.error e) ↔
        (splitNl contents).findIdx? (fun line => containsSub line pat) = none := by
      cases hf : (splitNl contents).findIdx? (fun line => containsSub line pat) <;> simp
    rw [hstep, List.findIdx?_eq_none_iff]
    constructor
    · intro h line hline hinf
      have hc := h line hline
      rw [← containsSub_iff line pat, hc] at hinf
      cases hinf
    · intro h line hline
      have hni := h line hline
      rw [← containsSub_iff line pat] at hni
      exact Bool.eq_false_iff.mpr hni

theorem applyContextChange_ok_of_found (contents pat content path : Str) (a : CtxAction)
    (k : Nat) (h : findPatternLineIndex contents pat path = Except.ok k) :
    ∃ r, applyContextChange contents pat a content path = Except.ok r := by
  unfold applyContextChange
  rw [h]
  cases a with
  | before => exact ⟨_, rfl⟩
  | after =>
    dsimp only
    by_cases hj : ((strL ".json").isSuffixOf path && decide (k < (splitNl contents).length)) = true
    · rw [if_pos hj]
      exact ⟨_, rfl⟩
    · rw [if_neg hj]
      exact ⟨_, rfl⟩
  | replace => exact ⟨_, rfl⟩

theorem applyContextChange_error_iff (contents pat content path : Str) (a : CtxAction) :
    (∃ e, applyContextChange contents pat a content path = Except.error e) ↔
      (∃ e, findPatternLineIndex contents pat path = Except.error e) := by
  cases hf : findPatternLineIndex contents pat path with
  | error e =>
    constructor
    · intro _
      exact ⟨e, rfl⟩
    · intro _
      refine ⟨e, ?_⟩
      unfold applyContextChange
      rw [hf]
  | ok k =>
    constructor
    · rintro ⟨e, he⟩
      rcases applyContextChange_ok_of_found contents pat content path a k hf with ⟨r, hr⟩
      rw [hr] at he
      cases he
    · rintro ⟨e, he⟩
      cases he

/-- C5: the pure edit entry point throws exactly when the change is a context
edit whose search pattern is missing (multi-line patterns by whole-content
substring search, single-line patterns by per-line substring scan); replace and
diff edits are total, and a removeLines range starting past the last line index
leaves the content unchanged. -/
theorem applyFileChange_error_iff_pattern_missing (contents : Str) (change : FileChange)
    (path : Str) :
    ((∃ e, applyFileChangeToContents contents change path = Except.error e) ↔
      ∃ p pat a c, change = FileChange.context p pat a c ∧ patternMissing contents pat) ∧
    (∀ (p : Str) (s en : Nat),
        change = FileChange.diff p (some (s, en)) none none →
        (splitNl contents).length ≤ s →
        applyFileChangeToContents contents change path = Except.ok contents) := by
  constructor
  · cases change with
    | replace p c =>
      simp [applyFileChangeToContents]
    | diff p rm ins fr =>
      simp [applyFileChangeToContents]
    | context p pat a c =>
      show (∃ e, applyContextChange contents pat a c path = Except.error e) ↔ _
      rw [applyContextChange_error_iff, findPatternLineIndex_error_iff]
      constructor
      · intro h
        exact ⟨p, pat, a, c, rfl, h⟩
      · rintro ⟨p', pat', a', c', heq, hm⟩
        have hpat : pat = pat' := by
          cases heq
          rfl
        rw [hpat]
        exact hm
  · rintro p s en rfl hlen
    show Except.ok (applyDiffChange contents (some (s, en)) none none) = Except.ok contents
    unfold applyDiffChange applyRemoveLines applyInsertLines
    dsimp only
    have h1 : (splitNl contents).take s = splitNl contents := List.take_of_length_le hlen
    have h2 : (splitNl contents).drop (s + ((en : Int) - (s : Int) + 1).toNat) = [] :=
      List.drop_eq_nil_of_le (le_trans hlen (Nat.le_add_right _ _))
    rw [jsSpliceRemove, h1, h2, List.append_nil, joinNl_splitNl]

/-- C5 witness: deleting a range starting past the end of a two-line file is a
no-op, and the edit does not throw. -/
theorem applyFileChange_error_iff_pattern_missing_witness :
    applyFileChangeToContents (strL "a\nb") (FileChange.diff [] (some (5, 7)) none none) [] =
      Except.ok (strL "a\nb") :=
  (applyFileChange_error_iff_pattern_missing (strL "a\nb")
      (FileChange.diff [] (some (5, 7)) none none) []).2 [] 5 7 rfl (by decide)

theorem containsSub_nil (s : Str) : containsSub s [] = true := by
  unfold containsSub firstInfixIdx
  cases s <;> simp [List.isPrefixOf]

/-- C7: a cli-output check evaluates all configured predicates (exit code,
stdout contains, stderr containsError, regex over the trimmed combined output)
as a conjunction — the step succeeds iff every configured predicate holds — and
on failure the error string contains the message of every failing predicate,
not only the first.  The hypothesis on regexTest states that the empty pattern
matches everything, as new RegExp('') does. -/
theorem cliOutput_all_predicates_conjunction (regexTest : Str → Str → Bool)
    (hre : ∀ s, regexTest [] s = true) (check : CliCheck) (result : CommandResult) :
    ((validateCliOutput regexTest check result).1 = true ↔
      ((∀ c ∈ check.exitCode, result.exitCode = c) ∧
       (∀ s ∈ check.contains, containsSub result.stdout s = true) ∧
       (∀ s ∈ check.containsError, containsSub result.stderr s = true) ∧
       (∀ p ∈ check.matchesPat,
         regexTest p (jsTrim (result.stdout ++ result.stderr)) = true))) ∧
    (∀ c ∈ check.exitCode, result.exitCode ≠ c →
      ∃ e, (validateCliOutput regexTest check result).2 = some e ∧
        msgExitCode c result.exitCode <:+: e) ∧
    (∀ s ∈ check.contains, containsSub result.stdout s = false →
      ∃ e, (validateCliOutput regexTest check result).2 = some e ∧
        msgStdoutContains s <:+: e) ∧
    (∀ s ∈ check.containsError, containsSub result.stderr s = false →
      ∃ e, (validateCliOutput regexTest check result).2 = some e ∧
        msgStderrContains s <:+: e) ∧
    (∀ p ∈ check.matchesPat, regexTest p (jsTrim (result.stdout ++ result.stderr)) = false →
      ∃ e, (validateCliOutput regexTest check result).2 = some e ∧
        msgPattern p <:+: e) := by
  obtain ⟨oc, oce, om, oec⟩ := check
  set E1 : List Str := (match oec with
     | some c => if result.exitCode ≠ c then [msgExitCode c result.exitCode] else []
     | none => []) with hE1
  set E2 : List Str := (if truthy oc && !containsSub result.stdout (oc.getD []) then
       [msgStdoutContains (oc.getD [])] else []) with hE2
  set E3 : List Str := (if truthy oce && !containsSub result.stderr (oce.getD []) then
       [msgStderrContains (oce.getD [])] else []) with hE3
  set E4 : List Str := (if truthy om &&
        !regexTest (om.getD []) (jsTrim (result.stdout ++ result.stderr)) then
       [msgPattern (om.getD [])] else []) with hE4
  have hval : validateCliOutput regexTest ⟨oc, oce, om, oec⟩ result =
      ((E1 ++ E2 ++ E3 ++ E4).isEmpty,
        if (E1 ++ E2 ++ E3 ++ E4).isEmpty then none
        else some (joinErrors (E1 ++ E2 ++ E3 ++ E4))) := rfl
  have h1empty : E1 = [] ↔ ∀ c ∈ oec, result.exitCode = c := by
    cases oec with
    | none => simp [hE1]
    | some c =>
      by_cases hne : result.exitCode = c
      · simp [hE1, hne]
      · simp [hE1, hne]
  have h2empty : E2 = [] ↔ ∀ s ∈ oc, containsSub result.stdout s = true := by
    cases oc with
    | none => simp [hE2, truthy]
    | some s =>
      by_cases hs : s = []
      · subst hs
        simp [hE2, truthy, containsSub_nil]
      · have hsi : s.isEmpty = false := by simpa [List.isEmpty_iff] using hs
        by_cases hcs : containsSub result.stdout s
        · simp [hE2, truthy, hsi, hcs]
        · simp [hE2, truthy, hsi, hcs]
  have h3empty : E3 = [] ↔ ∀ s ∈ oce, containsSub result.stderr s = true := by
    cases oce with
    | none => simp [hE3, truthy]
    | some s =>
      by_cases hs : s = []
      · subst hs
        simp [hE3, truthy, containsSub_nil]
      · have hsi : s.isEmpty = false := by simpa [List.isEmpty_iff] using hs
        by_cases hcs : containsSub result.stderr s
        · simp [hE3, truthy, hsi, hcs]
        · simp [hE3, truthy, hsi, hcs]
  have h4empty : E4 = [] ↔
      ∀ p ∈ om, regexTest p (jsTrim (result.stdout ++ result.stderr)) = true := by
    cases om with
    | none => simp [hE4, truthy]
    | some p =>
      by_cases hp : p = []
      · subst hp
        simp [hE4, truthy, hre]
      · have hpi : p.isEmpty = false := by simpa [List.isEmpty_iff] using hp
        by_cases hcp : regexTest p (jsTrim (result.stdout ++ result.stderr))
        · simp [hE4, truthy, hpi, hcp]
        · simp [hE4, truthy, hpi, hcp]
  have hfail : ∀ m : Str, m ∈ E1 ++ E2 ++ E3 ++ E4 →
      ∃ e, (validateCliOutput regexTest ⟨oc, oce, om, oec⟩ result).2 = some e ∧
        m <:+: e := by
    intro m hm
    have hne : (E1 ++ E2 ++ E3 ++ E4) ≠ [] := List.ne_nil_of_mem hm
    have hie : (E1 ++ E2 ++ E3 ++ E4).isEmpty = false := by
      simpa [List.isEmpty_iff] using hne
    refine ⟨joinErrors (E1 ++ E2 ++ E3 ++ E4), ?_, infix_of_mem_joinErrors m _ hm⟩
    rw [hval]
    show (if (E1 ++ E2 ++ E3 ++ E4).isEmpty = true then none
      else some (joinErrors (E1 ++ E2 ++ E3 ++ E4))) = _
    rw [hie]
    simp
  refine ⟨?_, ?_, ?_, ?_, ?_⟩
  · rw [hval]
    show (E1 ++ E2 ++ E3 ++ E4).isEmpty = true ↔ _
    rw [List.isEmpty_iff]
    simp only [List.append_eq_nil]
    rw [h1empty, h2empty, h3empty, h4empty]
    tauto
  · intro c hc hne
    have hoec : oec = some c := by
      cases oec with
      | none => cases hc
      | some c2 => simp only [Option.mem_def, Option.some.injEq] at hc; rw [hc]
    apply hfail
    have hm1 : msgExitCode c result.exitCode ∈ E1 := by
      rw [hE1, hoec]
      simp [hne]
    simp only [List.mem_append]
    exact Or.inl (Or.inl (Or.inl hm1))
  · intro s hs hcs
    have hoc : oc = some s := by
      cases oc with
      | none => cases hs
      | some s2 => simp only [Option.mem_def, Option.some.injEq] at hs; rw [hs]
    have hsne : s ≠ [] := by
      intro h
      subst h
      rw [containsSub_nil] at hcs
      cases hcs
    have hsi : s.isEmpty = false := by simpa [List.isEmpty_iff] using hsne
    apply hfail
    have hm2 : msgStdoutContains s ∈ E2 := by
      rw [hE2, hoc]
      simp [truthy, hsi, hcs]
    simp only [List.mem_append]
    exact Or.inl (Or.inl (Or.inr hm2))
  · intro s hs hcs
    have hoce : oce = some s := by
      cases oce with
      | none => cases hs
      | some s2 => simp only [Option.mem_def, Option.some.injEq] at hs; rw [hs]
    have hsne : s ≠ [] := by
      intro h
      subst h
      rw [containsSub_nil] at hcs
      cases hcs
    have hsi : s.isEmpty = false := by simpa [List.isEmpty_iff] using hsne
    apply hfail
    have hm3 : msgStderrContains s ∈ E3 := by
      rw [hE3, hoce]
      simp [truthy, hsi, hcs]
    simp only [List.mem_append]
    exact Or.inl (Or.inr hm3)
  · intro p hp hcp
    have hom : om = some p := by
      cases om with
      | none => cases hp
      | some p2 => simp only [Option.mem_def, Option.some.injEq] at hp; rw [hp]
    have hpne : p ≠ [] := by
      intro h
      subst h
      rw [hre] at hcp
      cases hcp
    have hpi : p.isEmpty = false := by simpa [List.isEmpty_iff] using hpne
    apply hfail
    have hm4 : msgPattern p ∈ E4 := by
      rw [hE4, hom]
      simp [truthy, hpi, hcp]
    simp only [List.mem_append]
    exact Or.inr hm4

/-- C7 witness: a check with an exit-code predicate that fails — the error string
carries the exit-code message. -/
theorem cliOutput_all_predicates_conjunction_witness :
    ∃ e, (validateCliOutput rtTrue ⟨none, none, none, some 0⟩ ⟨1, [], []⟩).2 = some e ∧
      msgExitCode 0 1 <:+: e :=
  (cliOutput_all_predicates_conjunction rtTrue (fun _ => rfl)
      ⟨none, none, none, some 0⟩ ⟨1, [], []⟩).2.1 0 rfl (by decide)

theorem splitNl_joinNl_insert_length (L : List Str) (i : Nat) (x : Str)
    (hz : ∀ y ∈ L, countNl y = 0) :
    (splitNl (joinNl (jsSpliceInsert L i [x]))).length = L.length + countNl x + 1 := by
  have hlen := length_jsSpliceInsert_one L i x
  have hne : jsSpliceInsert L i [x] ≠ [] := List.length_pos.mp (by rw [hlen]; omega)
  rw [length_splitNl_joinNl _ hne, sum_countNl_jsSpliceInsert_one L i x hz, hlen]
  omega

theorem jsonAfterLines_shape (lines : List Str) (k : Nat) (content : Str) :
    ∃ L1 ins, jsonAfterLines lines k content = jsSpliceInsert L1 (k + 1) [ins] ∧
      (L1 = lines ∨ L1 = lines.set k (jsAppendComma (lines.getD k []))) ∧
      (ins = content ∨
        (endsWithChar (jsTrim content) ',' = true ∧
          ins = stripTrailingCommaWs content)) := by
  unfold jsonAfterLines
  dsimp only
  refine ⟨_, _, rfl, ?_, ?_⟩
  · split
    · right
      rfl
    · left
      rfl
  · split
    · split
      · next h =>
        simp only [Bool.and_eq_true] at h
        exact Or.inr ⟨h.2, rfl⟩
      · left
        rfl
    · split
      · next h =>
        simp only [Bool.and_eq_true] at h
        exact Or.inr ⟨h.2, rfl⟩
      · left
        rfl

theorem splitNl_joinNl_jsonAfterLines (lines : List Str) (k : Nat) (content : Str)
    (hz : ∀ y ∈ lines, countNl y = 0) (hk : k < lines.length) :
    (splitNl (joinNl (jsonAfterLines lines k content))).length =
        lines.length + countNl content + 1 ∨
      (endsWithChar (jsTrim content) ',' = true ∧
        (splitNl (joinNl (jsonAfterLines lines k content))).length =
          lines.length + countNl (stripTrailingCommaWs content) + 1) := by
  obtain ⟨L1, ins, heq, hL1, hins⟩ := jsonAfterLines_shape lines k content
  have hL1len : L1.length = lines.length := by
    rcases hL1 with h | h <;> simp [h, List.length_set]
  have hL1z : ∀ y ∈ L1, countNl y = 0 := by
    rcases hL1 with h | h
    · rw [h]
      exact hz
    · rw [h]
      apply mem_set_countNl_zero hz
      rw [countNl_jsAppendComma]
      have hmem : lines.getD k [] ∈ lines := by
        rw [List.getD_eq_getElem _ _ hk]
        exact List.getElem_mem hk
      exact hz _ hmem
  rcases hins with h | ⟨hcomma, h⟩
  · left
    rw [heq, splitNl_joinNl_insert_length L1 (k + 1) ins hL1z, hL1len, h]
  · right
    refine ⟨hcomma, ?_⟩
    rw [heq, splitNl_joinNl_insert_length L1 (k + 1) ins hL1z, hL1len, h]

/-- C8 counterexample: inserting the content "b":2,\n (trailing comma and
newline) after "a":1 in a three-line .json file triggers the trailing-comma
strip, which also removes the newline of the stripped suffix: the result has 4
lines, not the claimed 3 + 1 + 1 = 5. -/
theorem context_insert_line_count_counterexample :
    applyContextChange (strL "\x7b\n\"a\":1\n\x7d") (strL "\"a\":1") CtxAction.after
        (strL "\"b\":2,\n") (strL "x.json") =
      Except.ok (strL "\x7b\n\"a\":1,\n\"b\":2\n\x7d") ∧
    (splitNl (strL "\x7b\n\"a\":1,\n\"b\":2\n\x7d")).length = 4 ∧
    (splitNl (strL "\x7b\n\"a\":1\n\x7d")).length + countNl (strL "\"b\":2,\n") + 1 = 5 := by
  refine ⟨rfl, ?_, ?_⟩ <;> decide

/-- C8 (amended): for a ContextAnchor before/after edit whose pattern is found,
the resulting line count equals the input line count plus the newline count of
the inserted content plus one — comma addition on the matched line never changes
the count — except possibly on the .json after-path when the trimmed inserted
content ends with a comma: there the trailing-comma strip may fire, and the
count is then the input count plus the newlines of the stripped content plus
one, which is smaller exactly when the stripped comma-whitespace suffix contains
newlines (as in the counterexample).  In particular the original formula holds
unconditionally for action = before, for non-.json paths, and whenever the
trimmed content does not end with a comma. -/
theorem context_insert_line_count (contents pattern content path : Str) (a : CtxAction)
    (ha : a = CtxAction.before ∨ a = CtxAction.after)
    (hfound : (findPatternLineIndex contents pattern path).isOk = true) :
    ∃ res, applyContextChange contents pattern a content path = Except.ok res ∧
      ((splitNl res).length = (splitNl contents).length + countNl content + 1 ∨
        (a = CtxAction.after ∧ (strL ".json").isSuffixOf path = true ∧
          endsWithChar (jsTrim content) ',' = true ∧
          (splitNl res).length =
            (splitNl contents).length + countNl (stripTrailingCommaWs content) + 1)) := by
  obtain ⟨k, hk⟩ : ∃ k, findPatternLineIndex contents pattern path = Except.ok k := by
    cases hf : findPatternLineIndex contents pattern path with
    | ok k => exact ⟨k, rfl⟩
    | error e =>
      rw [hf] at hfound
      cases hfound
  have hzero : ∀ y ∈ splitNl contents, countNl y = 0 := fun y hy =>
    List.count_eq_zero.mpr (mem_splitNl_not_nl contents y hy)
  rcases ha with hb | hb
  · subst hb
    have heq : applyContextChange contents pattern CtxAction.before content path =
        Except.ok (joinNl (jsSpliceInsert (splitNl contents) k [content])) := by
      unfold applyContextChange
      rw [hk]
    exact ⟨_, heq, Or.inl (splitNl_joinNl_insert_length _ k content hzero)⟩
  · subst hb
    by_cases hj :
        ((strL ".json").isSuffixOf path && decide (k < (splitNl contents).length)) = true
    · have hj2 := hj
      simp only [Bool.and_eq_true, decide_eq_true_eq] at hj2
      have heq : applyContextChange contents pattern CtxAction.after content path =
          Except.ok (joinNl (jsonAfterLines (splitNl contents) k content)) := by
        unfold applyContextChange
        rw [hk]
        dsimp only
        rw [if_pos hj]
      rcases splitNl_joinNl_jsonAfterLines (splitNl contents) k content hzero hj2.2 with
        h | ⟨hcomma, h⟩
      · exact ⟨_, heq, Or.inl h⟩
      · exact ⟨_, heq, Or.inr ⟨rfl, hj2.1, hcomma, h⟩⟩
    · have heq : applyContextChange contents pattern CtxAction.after content path =
          Except.ok (joinNl (jsSpliceInsert (splitNl contents) (k + 1) [content])) := by
        unfold applyContextChange
        rw [hk]
        dsimp only
        rw [if_neg hj]
      exact ⟨_, heq, Or.inl (splitNl_joinNl_insert_length _ (k + 1) content hzero)⟩

/-- C8 witness: a before-edit inserting content that itself ends with a newline —
the original formula holds with no proviso: 2 + 1 + 1 = 4 lines. -/
theorem context_insert_line_count_witness :
    ∃ res, applyContextChange (strL "a\nb") (strL "b") CtxAction.before
        (strL "c\n") (strL "f.txt") = Except.ok res ∧
      ((splitNl res).length = (splitNl (strL "a\nb")).length + countNl (strL "c\n") + 1 ∨
        (CtxAction.before = CtxAction.after ∧
          (strL ".json").isSuffixOf (strL "f.txt") = true ∧
          endsWithChar (jsTrim (strL "c\n")) ',' = true ∧
          (splitNl res).length =
            (splitNl (strL "a\nb")).length +
              countNl (stripTrailingCommaWs (strL "c\n")) + 1)) :=
  context_insert_line_count (strL "a\nb") (strL "b") (strL "c\n") (strL "f.txt")
    CtxAction.before (Or.inl rfl) (by decide)

/-- C10: for a pattern with an embedded newline found in the contents at first
occurrence i, findPatternLineIndex returns (line of the match start) + (number of
split lines of the pattern), i.e. one past the last line the pattern's split
lines occupy; consequently action = before splices the content in at that index
— after the matched multi-line pattern, not before it — and action = replace
overwrites the line at that index, the line following the pattern. -/
theorem multiline_pattern_index_after_match (contents pattern content path : Str)
    (i : Nat) (h1 : '\n' ∈ pattern) (h2 : firstInfixIdx contents pattern = some i) :
    findPatternLineIndex contents pattern path =
      Except.ok (countNl (contents.take i) + ((splitNl pattern).length - 1) + 1) ∧
    applyContextChange contents pattern CtxAction.before content path =
      Except.ok (joinNl (jsSpliceInsert (splitNl contents)
        (countNl (contents.take i) + ((splitNl pattern).length - 1) + 1) [content])) ∧
    applyContextChange contents pattern CtxAction.replace content path =
      Except.ok (joinNl (jsArraySet (splitNl contents)
        (countNl (contents.take i) + ((splitNl pattern).length - 1) + 1) content)) := by
  have hidx : findPatternLineIndex contents pattern path =
      Except.ok (countNl (contents.take i) + ((splitNl pattern).length - 1) + 1) := by
    unfold findPatternLineIndex
    rw [if_pos h1, h2]
    dsimp only
    have ha := length_splitNl (contents.take i)
    have hb := length_splitNl pattern
    rw [ha, hb]
    congr 1
  refine ⟨hidx, ?_, ?_⟩
  · unfold applyContextChange
    rw [hidx]
  · unfold applyContextChange
    rw [hidx]

/-- C10 witness: the two-line pattern P1\nP2 found at line 1 of a four-line file
gives index 3, one past the pattern's last line. -/
theorem multiline_pattern_index_after_match_witness :
    findPatternLineIndex (strL "l0\nP1\nP2\ntail") (strL "P1\nP2") (strL "f.txt") =
      Except.ok (countNl ((strL "l0\nP1\nP2\ntail").take 3) +
        ((splitNl (strL "P1\nP2")).length - 1) + 1) :=
  (multiline_pattern_index_after_match (strL "l0\nP1\nP2\ntail") (strL "P1\nP2") []
      (strL "f.txt") 3 (by decide) (by decide)).1
